import Mathlib

/-!
Shallow embedding of the geometric core of `escript-utils`:

* `remove-duplicates.py` : `extract_bbox`, `iou`, `detect_duplicates_to_delete`
* `reassign.py`          : `extract_bbox`, `rel_intersection`, `detect_reassignment`

Modelling conventions:

* Coordinates are integers (the source's type hints); Python's float division
  of integer areas is modelled exactly in `ℚ`.
* A Python dict is an association list in insertion order; re-inserting an
  existing key replaces the value in place (`dictInsert`), as Python does.
* A Python set of ints is a duplicate-free list built by `insertSet`;
  membership is the only property the claims use.
* A missing or empty `mask`/`box` value is the empty list (both are falsy in
  the source's `line.get("mask")` / `region.get("box")` guards).
* The one partial operation, `extract_bbox` on an empty polygon (an
  `IndexError` in Python), returns `none`; `detect_reassignment`, which can
  hit it, therefore returns an `Option` and `none` models the raised
  exception.  `detect_duplicates_to_delete` filters empty masks first, as the
  source does, and is total.
* The wrapped-`parsedValue` point representation resolves to the same
  numbers as the raw one (per the data contract), so points are plain pairs.
-/

/-- An axis-aligned bounding box `(x_min, y_min, x_max, y_max)`. -/
structure BBox where
  x_min : Int
  y_min : Int
  x_max : Int
  y_max : Int
deriving DecidableEq

/-- A line dict: `pk`, `mask`, nullable `region`, with `extra` standing for
all remaining keys, which the engines never touch. -/
structure Line where
  pk : Int
  mask : List (Int × Int)
  region : Option Int
  extra : Int
deriving DecidableEq

/-- A region dict: `pk` and an optional polygon `box` (empty = absent). -/
structure Region where
  pk : Int
  box : List (Int × Int)
deriving DecidableEq

/-- `extract_bbox` from both source files: component-wise min/max over the
polygon's points; `none` models the `IndexError` on an empty polygon. -/
def extract_bbox : List (Int × Int) → Option BBox
  | [] => none
  | p :: ps =>
    some ⟨(ps.map Prod.fst).foldl min p.1, (ps.map Prod.snd).foldl min p.2,
          (ps.map Prod.fst).foldl max p.1, (ps.map Prod.snd).foldl max p.2⟩

/-- `iou` from `remove-duplicates.py`: intersection over union, with the
source's short-circuit to `0.0` when the clamped intersection area is `0`.
Python's exact float-free division of the two integer areas is
`Rat.divInt`, which agrees with `(· / ·)` on `ℚ` (`Rat.divInt_eq_div`). -/
def iou (boxA boxB : BBox) : ℚ :=
  let xA := max boxA.x_min boxB.x_min
  let yA := max boxA.y_min boxB.y_min
  let xB := min boxA.x_max boxB.x_max
  let yB := min boxA.y_max boxB.y_max
  let inter_width := max 0 (xB - xA)
  let inter_height := max 0 (yB - yA)
  let inter_area := inter_width * inter_height
  if inter_area = 0 then 0
  else
    let areaA := (boxA.x_max - boxA.x_min) * (boxA.y_max - boxA.y_min)
    let areaB := (boxB.x_max - boxB.x_min) * (boxB.y_max - boxB.y_min)
    Rat.divInt inter_area (areaA + areaB - inter_area)

/-- `rel_intersection` from `reassign.py`: clamped intersection area divided
by the area of the first box, `0` when the first box is degenerate. -/
def rel_intersection (box_a box_b : BBox) : ℚ :=
  let x_a := max box_a.x_min box_b.x_min
  let y_a := max box_a.y_min box_b.y_min
  let x_b := min box_a.x_max box_b.x_max
  let y_b := min box_a.y_max box_b.y_max
  let width_a := |box_a.x_min - box_a.x_max|
  let height_a := |box_a.y_min - box_a.y_max|
  if width_a = 0 ∨ height_a = 0 then 0
  else
    let inter_width := max 0 (x_b - x_a)
    let inter_height := max 0 (y_b - y_a)
    Rat.divInt (inter_width * inter_height) (width_a * height_a)

/-- Insertion into a Python-dict association list: an existing key has its
value replaced in place, a new key is appended. -/
def dictInsert (k : Int) (v : BBox) (d : List (Int × BBox)) : List (Int × BBox) :=
  if k ∈ d.map Prod.fst then d.map (fun kv => if kv.1 = k then (k, v) else kv)
  else d ++ [(k, v)]

/-- One step of the bbox-dict comprehension over lines:
`{line["pk"]: extract_bbox(line["mask"]) for line in lines if line.get("mask")}`. -/
def bboxStep (d : List (Int × BBox)) (line : Line) : List (Int × BBox) :=
  match extract_bbox line.mask with
  | some b => dictInsert line.pk b d
  | none => d

/-- The bbox dict of `detect_duplicates_to_delete`, keyed by line `pk`. -/
def line_bboxes (lines : List Line) : List (Int × BBox) :=
  lines.foldl bboxStep []

/-- The dict entry a line contributes: `none` when its mask is empty. -/
def bboxEntry (l : Line) : Option (Int × BBox) :=
  (extract_bbox l.mask).map (fun b => (l.pk, b))

/-- One step of the bbox-dict comprehension over regions in
`detect_reassignment` (guarded by `region.get("box")`). -/
def regionStep (d : List (Int × BBox)) (region : Region) : List (Int × BBox) :=
  match extract_bbox region.box with
  | some b => dictInsert region.pk b d
  | none => d

/-- The `region_bboxes` dict of `detect_reassignment`, keyed by region `pk`. -/
def region_bboxes (regions : List Region) : List (Int × BBox) :=
  regions.foldl regionStep []

/-- `itertools.combinations(_, 2)`: every unordered pair of list positions,
each in list order, enumerated once. -/
def pairsOf {α : Type} : List α → List (α × α)
  | [] => []
  | x :: xs => xs.map (fun y => (x, y)) ++ pairsOf xs

/-- Adding an element to a Python set of ints (modelled as a dedup list). -/
def insertSet (x : Int) (s : List Int) : List Int :=
  if x ∈ s then s else s ++ [x]

/-- `tuple(sorted((id1, id2)))`, the key stored in `checked_pairs`. -/
def pairKey (i j : Int) : Int × Int := (min i j, max i j)

/-- One iteration of the pair loop in `detect_duplicates_to_delete`: state is
`(checked_pairs, to_delete)`; a pair whose key was already checked is
skipped; a pair with `iou > 0.5` nominates its smaller-`x_min` member. -/
def dupStep (st : List (Int × Int) × List Int) (pr : (Int × BBox) × (Int × BBox)) :
    List (Int × Int) × List Int :=
  if pairKey pr.1.1 pr.2.1 ∈ st.1 then st
  else if mkRat 1 2 < iou pr.1.2 pr.2.2 then
    (pairKey pr.1.1 pr.2.1 :: st.1,
     insertSet (if pr.1.2.x_min < pr.2.2.x_min then pr.1.1 else pr.2.1) st.2)
  else (pairKey pr.1.1 pr.2.1 :: st.1, st.2)

/-- `detect_duplicates_to_delete` from `remove-duplicates.py`. -/
def detect_duplicates_to_delete (lines : List Line) : List Int :=
  ((pairsOf (line_bboxes lines)).foldl dupStep ([], [])).2

/-- The pair loop without the (provably inert) `checked_pairs` bookkeeping;
used to state membership characterizations. -/
def dupFoldStep (td : List Int) (pr : (Int × BBox) × (Int × BBox)) : List Int :=
  if mkRat 1 2 < iou pr.1.2 pr.2.2 then
    insertSet (if pr.1.2.x_min < pr.2.2.x_min then pr.1.1 else pr.2.1) td
  else td

/-- Folding `dupFoldStep` over a pair list. -/
def dupFold (prs : List ((Int × BBox) × (Int × BBox))) (td : List Int) : List Int :=
  prs.foldl dupFoldStep td

/-- One iteration of the inner region loop of `detect_reassignment`: the
running best is `(best_idx, best_intersection)`; the source re-evaluates
`extract_bbox(line["mask"])` on every iteration, so an empty mask raises
(`none`) as soon as one candidate region exists. -/
def bestStep (mask : List (Int × Int)) (st : Option (Int × ℚ)) (iz : Int × BBox) :
    Option (Int × ℚ) :=
  match st, extract_bbox mask with
  | none, _ => none
  | some _, none => none
  | some st', some lb =>
    let c := rel_intersection lb iz.2
    if st'.2 < c ∧ 0 < c then some (iz.1, c) else some st'

/-- The inner region loop once the line's bbox is known to be `lb`. -/
def pureStep (lb : BBox) (st : Int × ℚ) (iz : Int × BBox) : Int × ℚ :=
  let c := rel_intersection lb iz.2
  if st.2 < c ∧ 0 < c then (iz.1, c) else st

/-- The body of the per-line loop of `detect_reassignment`: scan the region
dict from `(best_idx, best_intersection) = (-1, 0)`; if the final `best_idx`
is not `-1` and differs from `line.get("region")`, rewrite the line's region
and mark it for update. -/
def process_line (zones : List (Int × BBox)) (line : Line) : Option (Line × Bool) :=
  match zones.foldl (bestStep line.mask) (some (-1, 0)) with
  | none => none
  | some st =>
    if st.1 ≠ -1 ∧ line.region ≠ some st.1 then
      some ({ line with region := some st.1 }, true)
    else
      some (line, false)

/-- The per-line loop of `detect_reassignment`: returns the post-mutation
lines list paired with `require_updates` (which aliases the mutated lines,
as in the source). -/
def reassign_go (zones : List (Int × BBox)) : List Line → Option (List Line × List Line)
  | [] => some ([], [])
  | l :: ls =>
    match process_line zones l with
    | none => none
    | some (l', b) =>
      match reassign_go zones ls with
      | none => none
      | some (ls', ups) => some (l' :: ls', if b then l' :: ups else ups)

/-- `detect_reassignment` from `reassign.py`; `none` models the uncaught
`IndexError` raised on an empty mask. -/
def detect_reassignment (lines : List Line) (regions : List Region) :
    Option (List Line × List Line) :=
  reassign_go (region_bboxes regions) lines

/-- Modelled from the spec's words for §4.3: one scan step keeping the first
region of strictly greatest positive relative overlap. -/
def specStep (lb : BBox) (best : Option (Int × ℚ)) (iz : Int × BBox) : Option (Int × ℚ) :=
  let c := rel_intersection lb iz.2
  match best with
  | none => if 0 < c then some (iz.1, c) else none
  | some b => if b.2 < c then some (iz.1, c) else some b

/-- Modelled from the spec's words: the best candidate region for a line box,
`none` when no region has positive relative overlap, first-encountered-wins
on ties. -/
def best_region_spec (lb : BBox) (zones : List (Int × BBox)) : Option (Int × ℚ) :=
  zones.foldl (specStep lb) none

/-- Modelled from the spec's words for §4.3: update a line's region to its
best region exactly when a best region exists and differs from the current
assignment; the flag records whether an update (a write-back) happened. -/
def applyBest (zones : List (Int × BBox)) (line : Line) : Line × Bool :=
  match extract_bbox line.mask with
  | none => (line, false)
  | some lb =>
    match best_region_spec lb zones with
    | none => (line, false)
    | some b =>
      if line.region ≠ some b.1 then ({ line with region := some b.1 }, true)
      else (line, false)

/-- Relation between the source's sentinel-based running best
(`best_idx = -1`, `best_intersection = 0`) and the spec-side `Option` best:
they agree as long as no region identifier collides with the sentinel. -/
def BestRel (code : Int × ℚ) (sp : Option (Int × ℚ)) : Prop :=
  (code = (-1, 0) ∧ sp = none) ∨ (code.1 ≠ -1 ∧ 0 < code.2 ∧ sp = some code)

/-- First entry of strictly greatest `x_min`, scanning from `b`. -/
def firstMaxGo (b : Int × BBox) : List (Int × BBox) → Int × BBox
  | [] => b
  | e :: es => firstMaxGo (if b.2.x_min < e.2.x_min then e else b) es

/-- The first-enumerated entry of greatest `x_min` in a bbox dict. -/
def firstMaxEntry : List (Int × BBox) → Option (Int × BBox)
  | [] => none
  | e :: es => some (firstMaxGo e es)

theorem mem_insertSet {x a : Int} {s : List Int} :
    x ∈ insertSet a s ↔ x = a ∨ x ∈ s := by
  unfold insertSet
  split
  · rename_i h
    constructor
    · exact fun hx => Or.inr hx
    · rintro (rfl | hx)
      · exact h
      · exact hx
  · simp [or_comm]

theorem extract_bbox_eq_none {mask : List (Int × Int)} :
    extract_bbox mask = none ↔ mask = [] := by
  cases mask <;> simp [extract_bbox]

theorem dictInsert_of_not_mem {k : Int} {v : BBox} {d : List (Int × BBox)}
    (h : k ∉ d.map Prod.fst) : dictInsert k v d = d ++ [(k, v)] := by
  simp [dictInsert, h]

theorem dictInsert_keys (k : Int) (v : BBox) (d : List (Int × BBox)) :
    (dictInsert k v d).map Prod.fst =
      if k ∈ d.map Prod.fst then d.map Prod.fst else d.map Prod.fst ++ [k] := by
  unfold dictInsert
  split
  · rw [List.map_map]
    refine List.map_congr_left fun kv _ => ?_
    by_cases hk : kv.1 = k
    · simp [hk]
    · simp [hk]
  · simp

theorem mem_dictInsert {z : Int × BBox} {k : Int} {v : BBox} {d : List (Int × BBox)}
    (h : z ∈ dictInsert k v d) : z.1 = k ∨ z ∈ d := by
  unfold dictInsert at h
  split at h
  · obtain ⟨kv, hkv, hz⟩ := List.mem_map.mp h
    by_cases hk : kv.1 = k
    · rw [if_pos hk] at hz
      left
      rw [← hz]
    · rw [if_neg hk] at hz
      right
      rwa [← hz]
  · rcases List.mem_append.mp h with h | h
    · right
      exact h
    · left
      simp only [List.mem_singleton] at h
      rw [h]

theorem dictInsert_keys_nodup {k : Int} {v : BBox} {d : List (Int × BBox)}
    (h : (d.map Prod.fst).Nodup) : ((dictInsert k v d).map Prod.fst).Nodup := by
  rw [dictInsert_keys]
  split
  · exact h
  · rename_i hk
    simp [List.nodup_append, h, hk]

theorem line_bboxes_go_nodup :
    ∀ (ls : List Line) (acc : List (Int × BBox)),
      (acc.map Prod.fst).Nodup → ((ls.foldl bboxStep acc).map Prod.fst).Nodup := by
  intro ls
  induction ls with
  | nil => exact fun acc h => h
  | cons l ls ih =>
    intro acc h
    simp only [List.foldl_cons]
    apply ih
    unfold bboxStep
    cases extract_bbox l.mask with
    | none => exact h
    | some b => exact dictInsert_keys_nodup h

theorem line_bboxes_keys_nodup (lines : List Line) :
    ((line_bboxes lines).map Prod.fst).Nodup :=
  line_bboxes_go_nodup lines [] (by simp)

theorem pair_mem_pairsOf {α : Type} {a b : α} {l : List α} :
    (a, b) ∈ pairsOf l ↔ List.Sublist [a, b] l := by
  induction l with
  | nil => simp [pairsOf]
  | cons x xs ih =>
    simp only [pairsOf, List.mem_append, List.mem_map, ih]
    constructor
    · rintro (⟨y, hy, heq⟩ | h)
      · obtain ⟨rfl, rfl⟩ : x = a ∧ y = b := by
          simpa [Prod.ext_iff] using heq
        exact List.cons_sublist_cons.mpr (List.singleton_sublist.mpr hy)
      · exact h.cons x
    · intro h
      cases h with
      | cons _ h' => exact Or.inr h'
      | cons₂ _ h' => exact Or.inl ⟨b, List.singleton_sublist.mp h', rfl⟩

theorem mem_of_mem_pairsOf {α : Type} {p : α × α} {l : List α}
    (h : p ∈ pairsOf l) : p.1 ∈ l ∧ p.2 ∈ l := by
  obtain ⟨a, b⟩ := p
  have h' : List.Sublist [a, b] l := pair_mem_pairsOf.mp h
  exact ⟨h'.subset (by simp), h'.subset (by simp)⟩

theorem both_orders_sublist {α : Type} {a b : α} {l : List α}
    (ha : a ∈ l) (hb : b ∈ l) (hne : a ≠ b) :
    List.Sublist [a, b] l ∨ List.Sublist [b, a] l := by
  induction l with
  | nil => cases ha
  | cons x xs ih =>
    rcases List.mem_cons.mp ha with rfl | ha'
    · have hb' : b ∈ xs := by
        rcases List.mem_cons.mp hb with h | h
        · exact absurd h.symm hne
        · exact h
      exact Or.inl (List.cons_sublist_cons.mpr (List.singleton_sublist.mpr hb'))
    · rcases List.mem_cons.mp hb with rfl | hb'
      · exact Or.inr (List.cons_sublist_cons.mpr (List.singleton_sublist.mpr ha'))
      · rcases ih ha' hb' with h | h
        · exact Or.inl (h.cons x)
        · exact Or.inr (h.cons x)

theorem pairsOf_keys_nodup :
    ∀ {d : List (Int × BBox)}, (d.map Prod.fst).Nodup →
      ((pairsOf d).map (fun pr => pairKey pr.1.1 pr.2.1)).Nodup := by
  intro d
  induction d with
  | nil => intro _; simp [pairsOf]
  | cons x xs ih =>
    intro h
    simp only [List.map_cons, List.nodup_cons] at h
    obtain ⟨hx, hxs⟩ := h
    simp only [pairsOf, List.map_append, List.map_map]
    rw [List.nodup_append]
    have hleft : (xs.map ((fun pr : (Int × BBox) × Int × BBox => pairKey pr.1.1 pr.2.1) ∘
        fun y => (x, y))) = (xs.map Prod.fst).map (fun k => pairKey x.1 k) := by
      simp [List.map_map, Function.comp_def]
    refine ⟨?_, ih hxs, ?_⟩
    · rw [hleft]
      refine List.Nodup.map_on ?_ hxs
      intro k1 hk1 k2 hk2 heq
      have hne1 : k1 ≠ x.1 := fun he => hx (he ▸ hk1)
      have hne2 : k2 ≠ x.1 := fun he => hx (he ▸ hk2)
      simp only [pairKey, Prod.mk.injEq] at heq
      omega
    · rw [hleft]
      intro a ha hb
      obtain ⟨k, hk, rfl⟩ := List.mem_map.mp ha
      obtain ⟨pr, hpr, hprk⟩ := List.mem_map.mp hb
      have hm := mem_of_mem_pairsOf hpr
      have h1 : pr.1.1 ≠ x.1 := fun he => hx (he ▸ List.mem_map_of_mem Prod.fst hm.1)
      have h2 : pr.2.1 ≠ x.1 := fun he => hx (he ▸ List.mem_map_of_mem Prod.fst hm.2)
      have hne : k ≠ x.1 := fun he => hx (he ▸ hk)
      simp only [pairKey, Prod.mk.injEq] at hprk
      omega

theorem foldl_dupStep_eq :
    ∀ (prs : List ((Int × BBox) × (Int × BBox))) (checked : List (Int × Int)) (td : List Int),
      (∀ pr ∈ prs, pairKey pr.1.1 pr.2.1 ∉ checked) →
      (prs.map (fun pr => pairKey pr.1.1 pr.2.1)).Nodup →
      (prs.foldl dupStep (checked, td)).2 = dupFold prs td := by
  intro prs
  induction prs with
  | nil => intro checked td _ _; rfl
  | cons p ps ih =>
    intro checked td hc hn
    simp only [List.map_cons, List.nodup_cons] at hn
    have hkp : pairKey p.1.1 p.2.1 ∉ checked := hc p (List.mem_cons_self _ _)
    have hstep : dupStep (checked, td) p =
        (pairKey p.1.1 p.2.1 :: checked, dupFoldStep td p) := by
      unfold dupStep dupFoldStep
      rw [if_neg hkp]
      by_cases hio : mkRat 1 2 < iou p.1.2 p.2.2
      · simp [hio]
      · simp [hio]
    simp only [dupFold, List.foldl_cons]
    rw [hstep]
    refine ih _ _ ?_ hn.2
    intro q hq
    simp only [List.mem_cons, not_or]
    exact ⟨fun he => hn.1 (he ▸ List.mem_map_of_mem _ hq),
           hc q (List.mem_cons_of_mem _ hq)⟩

theorem mem_dupFold :
    ∀ (prs : List ((Int × BBox) × (Int × BBox))) (td : List Int) (x : Int),
      x ∈ dupFold prs td ↔
        x ∈ td ∨ ∃ pr ∈ prs, mkRat 1 2 < iou pr.1.2 pr.2.2 ∧
          x = (if pr.1.2.x_min < pr.2.2.x_min then pr.1.1 else pr.2.1) := by
  intro prs
  induction prs with
  | nil => intro td x; simp [dupFold]
  | cons p ps ih =>
    intro td x
    have hcons : dupFold (p :: ps) td = dupFold ps (dupFoldStep td p) := rfl
    rw [hcons, ih]
    unfold dupFoldStep
    by_cases hio : mkRat 1 2 < iou p.1.2 p.2.2
    · rw [if_pos hio, mem_insertSet]
      simp only [List.mem_cons]
      constructor
      · rintro ((rfl | hx) | ⟨pr, hpr, hio', hx⟩)
        · exact Or.inr ⟨p, Or.inl rfl, hio, rfl⟩
        · exact Or.inl hx
        · exact Or.inr ⟨pr, Or.inr hpr, hio', hx⟩
      · rintro (hx | ⟨pr, (rfl | hpr), hio', hx⟩)
        · exact Or.inl (Or.inr hx)
        · exact Or.inl (Or.inl hx)
        · exact Or.inr ⟨pr, hpr, hio', hx⟩
    · rw [if_neg hio]
      simp only [List.mem_cons]
      constructor
      · rintro (hx | ⟨pr, hpr, hio', hx⟩)
        · exact Or.inl hx
        · exact Or.inr ⟨pr, Or.inr hpr, hio', hx⟩
      · rintro (hx | ⟨pr, (rfl | hpr), hio', hx⟩)
        · exact Or.inl hx
        · exact absurd hio' hio
        · exact Or.inr ⟨pr, hpr, hio', hx⟩

theorem iou_symm (A B : BBox) : iou A B = iou B A := by
  simp only [iou]
  rw [max_comm A.x_min B.x_min, max_comm A.y_min B.y_min,
      min_comm A.x_max B.x_max, min_comm A.y_max B.y_max]
  split
  · rfl
  · congr 1
    ring

theorem line_bboxes_go_filterMap :
    ∀ (ls : List Line) (acc : List (Int × BBox)),
      (∀ l ∈ ls, l.pk ∉ acc.map Prod.fst) → (ls.map Line.pk).Nodup →
      ls.foldl bboxStep acc = acc ++ ls.filterMap bboxEntry := by
  intro ls
  induction ls with
  | nil => intro acc _ _; simp
  | cons l ls ih =>
    intro acc hacc hnd
    simp only [List.map_cons, List.nodup_cons] at hnd
    simp only [List.foldl_cons]
    cases hb : extract_bbox l.mask with
    | none =>
      have hs : bboxStep acc l = acc := by simp [bboxStep, hb]
      rw [hs, ih acc (fun l' hl' => hacc l' (List.mem_cons_of_mem _ hl')) hnd.2]
      simp [List.filterMap_cons, bboxEntry, hb]
    | some b =>
      have hs : bboxStep acc l = acc ++ [(l.pk, b)] := by
        simp [bboxStep, hb, dictInsert_of_not_mem (hacc l (List.mem_cons_self _ _))]
      rw [hs]
      have hstep := ih (acc ++ [(l.pk, b)]) ?_ hnd.2
      · rw [hstep]
        simp [List.filterMap_cons, bboxEntry, hb]
      · intro l' hl'
        simp only [List.map_append, List.mem_append, List.map_cons, List.map_nil,
          List.mem_singleton, not_or]
        refine ⟨hacc l' (List.mem_cons_of_mem _ hl'), fun h => ?_⟩
        exact hnd.1 (h ▸ List.mem_map_of_mem Line.pk hl')

theorem line_bboxes_eq_filterMap {lines : List Line}
    (hnd : (lines.map Line.pk).Nodup) :
    line_bboxes lines = lines.filterMap bboxEntry := by
  unfold line_bboxes
  rw [line_bboxes_go_filterMap lines [] (by simp) hnd]
  simp

theorem bboxEntry_mem {lines : List Line} {l : Line} {b : BBox}
    (hnd : (lines.map Line.pk).Nodup) (hl : l ∈ lines)
    (hb : extract_bbox l.mask = some b) :
    (l.pk, b) ∈ line_bboxes lines := by
  rw [line_bboxes_eq_filterMap hnd]
  exact List.mem_filterMap.mpr ⟨l, hl, by simp [bboxEntry, hb]⟩

theorem detect_duplicates_eq (lines : List Line) :
    detect_duplicates_to_delete lines = dupFold (pairsOf (line_bboxes lines)) [] := by
  unfold detect_duplicates_to_delete
  exact foldl_dupStep_eq _ [] []
    (by simp) (pairsOf_keys_nodup (line_bboxes_keys_nodup lines))

theorem bboxEntry_key {l : Line} {z : Int × BBox} (h : bboxEntry l = some z) :
    z.1 = l.pk := by
  simp only [bboxEntry, Option.map_eq_some'] at h
  obtain ⟨b, _, hb⟩ := h
  rw [← hb]

theorem firstMaxGo_mem :
    ∀ (es : List (Int × BBox)) (b : Int × BBox),
      firstMaxGo b es = b ∨ firstMaxGo b es ∈ es := by
  intro es
  induction es with
  | nil => intro b; exact Or.inl rfl
  | cons e es ih =>
    intro b
    simp only [firstMaxGo]
    by_cases h : b.2.x_min < e.2.x_min
    · rw [if_pos h]
      rcases ih e with h' | h'
      · right
        rw [h']
        exact List.mem_cons_self _ _
      · exact Or.inr (List.mem_cons_of_mem _ h')
    · rw [if_neg h]
      rcases ih b with h' | h'
      · exact Or.inl h'
      · exact Or.inr (List.mem_cons_of_mem _ h')

theorem firstMaxGo_ge :
    ∀ (es : List (Int × BBox)) (b : Int × BBox),
      b.2.x_min ≤ (firstMaxGo b es).2.x_min ∧
        ∀ e ∈ es, e.2.x_min ≤ (firstMaxGo b es).2.x_min := by
  intro es
  induction es with
  | nil => intro b; exact ⟨le_refl _, by simp⟩
  | cons e es ih =>
    intro b
    simp only [firstMaxGo]
    by_cases h : b.2.x_min < e.2.x_min
    · rw [if_pos h]
      obtain ⟨h1, h2⟩ := ih e
      refine ⟨le_of_lt (lt_of_lt_of_le h h1), fun e' he' => ?_⟩
      rcases List.mem_cons.mp he' with rfl | he'
      · exact h1
      · exact h2 e' he'
    · rw [if_neg h]
      obtain ⟨h1, h2⟩ := ih b
      refine ⟨h1, fun e' he' => ?_⟩
      rcases List.mem_cons.mp he' with rfl | he'
      · omega
      · exact h2 e' he'

theorem firstMaxGo_split :
    ∀ (es : List (Int × BBox)) (b : Int × BBox),
      firstMaxGo b es = b ∨
        ∃ es1 es2, es = es1 ++ firstMaxGo b es :: es2 ∧
          ∀ e ∈ b :: es1, e.2.x_min < (firstMaxGo b es).2.x_min := by
  intro es
  induction es with
  | nil => intro b; exact Or.inl rfl
  | cons e es ih =>
    intro b
    simp only [firstMaxGo]
    by_cases h : b.2.x_min < e.2.x_min
    · rw [if_pos h]
      rcases ih e with h' | ⟨es1, es2, heq, hlt⟩
      · right
        refine ⟨[], es, by rw [h', List.nil_append], ?_⟩
        intro e' he'
        simp only [List.mem_singleton] at he'
        rw [he', h']
        exact h
      · right
        refine ⟨e :: es1, es2, congrArg (List.cons e) heq, ?_⟩
        intro e' he'
        rcases List.mem_cons.mp he' with he0 | he''
        · rw [he0]
          exact lt_trans h (hlt e (List.mem_cons_self _ _))
        · exact hlt e' he''
    · rw [if_neg h]
      rcases ih b with h' | ⟨es1, es2, heq, hlt⟩
      · exact Or.inl h'
      · right
        refine ⟨e :: es1, es2, congrArg (List.cons e) heq, ?_⟩
        intro e' he'
        have hb := hlt b (List.mem_cons_self _ _)
        rcases List.mem_cons.mp he' with he0 | he''
        · rw [he0]
          exact hb
        · rcases List.mem_cons.mp he'' with he0 | he'''
          · rw [he0]
            omega
          · exact hlt e' (List.mem_cons_of_mem _ he''')

theorem sublist_before :
    ∀ (d1 d2 : List (Int × BBox)) (e m : Int × BBox),
      List.Sublist [e, m] (d1 ++ m :: d2) → m.1 ∉ d2.map Prod.fst → e ∈ d1 := by
  intro d1
  induction d1 with
  | nil =>
    intro d2 e m h hm
    exfalso
    simp only [List.nil_append] at h
    cases h with
    | cons _ h' => exact hm (List.mem_map_of_mem Prod.fst (h'.subset (by simp)))
    | cons₂ _ h' =>
      exact hm (List.mem_map_of_mem Prod.fst (List.singleton_sublist.mp h'))
  | cons x d1 ih =>
    intro d2 e m h hm
    simp only [List.cons_append] at h
    cases h with
    | cons _ h' => exact List.mem_cons_of_mem x (ih d2 e m h' hm)
    | cons₂ _ h' => exact List.mem_cons_self _ _

theorem foldl_bestStep_none (mask : List (Int × Int)) :
    ∀ zones : List (Int × BBox), zones.foldl (bestStep mask) none = none := by
  intro zones
  induction zones with
  | nil => rfl
  | cons z zs ih =>
    simp only [List.foldl_cons]
    have h : bestStep mask none z = none := rfl
    rw [h]
    exact ih

theorem foldl_bestStep_some {mask : List (Int × Int)} {lb : BBox}
    (hlb : extract_bbox mask = some lb) :
    ∀ (zones : List (Int × BBox)) (st : Int × ℚ),
      zones.foldl (bestStep mask) (some st) = some (zones.foldl (pureStep lb) st) := by
  intro zones
  induction zones with
  | nil => intro st; rfl
  | cons z zs ih =>
    intro st
    simp only [List.foldl_cons]
    have h : bestStep mask (some st) z = some (pureStep lb st z) := by
      simp only [bestStep, hlb, pureStep]
      split_ifs <;> rfl
    rw [h]
    exact ih _

theorem bestRel_step {lb : BBox} {st : Int × ℚ} {sp : Option (Int × ℚ)}
    {z : Int × BBox} (hz : z.1 ≠ -1) (h : BestRel st sp) :
    BestRel (pureStep lb st z) (specStep lb sp z) := by
  rcases h with ⟨hst, hsp⟩ | ⟨h1, h2, hsp⟩
  · subst hsp
    subst hst
    simp only [pureStep, specStep, BestRel]
    split_ifs with ha hb hb
    · exact Or.inr ⟨hz, ha.2, rfl⟩
    · exact absurd ha.2 hb
    · exact absurd ⟨hb, hb⟩ ha
    · exact Or.inl ⟨rfl, rfl⟩
  · subst hsp
    simp only [pureStep, specStep, BestRel]
    split_ifs with ha hb hb
    · exact Or.inr ⟨hz, ha.2, rfl⟩
    · exact absurd ha.1 hb
    · exact absurd ⟨hb, lt_trans h2 hb⟩ ha
    · exact Or.inr ⟨h1, h2, rfl⟩

theorem bestRel_foldl (lb : BBox) :
    ∀ (zones : List (Int × BBox)) (st : Int × ℚ) (sp : Option (Int × ℚ)),
      (∀ z ∈ zones, z.1 ≠ -1) → BestRel st sp →
      BestRel (zones.foldl (pureStep lb) st) (zones.foldl (specStep lb) sp) := by
  intro zones
  induction zones with
  | nil => intro st sp _ h; exact h
  | cons z zs ih =>
    intro st sp hz h
    simp only [List.foldl_cons]
    exact ih _ _ (fun z' hz' => hz z' (List.mem_cons_of_mem _ hz'))
      (bestRel_step (hz z (List.mem_cons_self _ _)) h)

theorem process_line_eq_applyBest {zones : List (Int × BBox)} {line : Line}
    (hm : line.mask ≠ []) (hz : ∀ z ∈ zones, z.1 ≠ -1) :
    process_line zones line = some (applyBest zones line) := by
  obtain ⟨lb, hlb⟩ : ∃ lb, extract_bbox line.mask = some lb := by
    cases hb : extract_bbox line.mask with
    | none => exact absurd (extract_bbox_eq_none.mp hb) hm
    | some b => exact ⟨b, rfl⟩
  have hfold := foldl_bestStep_some hlb zones (-1, 0)
  have hrel : BestRel (zones.foldl (pureStep lb) (-1, 0))
      (best_region_spec lb zones) :=
    bestRel_foldl lb zones (-1, 0) none hz (Or.inl ⟨rfl, rfl⟩)
  rcases hrel with ⟨hcode, hspec⟩ | ⟨h1, h2, hspec⟩
  · have happ : applyBest zones line = (line, false) := by
      simp [applyBest, hlb, hspec]
    rw [happ]
    simp [process_line, hfold, hcode]
  · by_cases hr : line.region = some ((zones.foldl (pureStep lb) (-1, 0)).1)
    · have happ : applyBest zones line = (line, false) := by
        simp [applyBest, hlb, hspec, hr]
      rw [happ]
      simp [process_line, hfold, hr]
    · have happ : applyBest zones line =
          ({ line with region := some ((zones.foldl (pureStep lb) (-1, 0)).1) }, true) := by
        simp [applyBest, hlb, hspec, hr]
      rw [happ]
      simp [process_line, hfold, h1, hr]

theorem reassign_go_eq {zones : List (Int × BBox)}
    (hz : ∀ z ∈ zones, z.1 ≠ -1) :
    ∀ lines : List Line, (∀ l ∈ lines, l.mask ≠ []) →
      reassign_go zones lines = some
        (lines.map (fun l => (applyBest zones l).1),
         (lines.map (applyBest zones)).filterMap
           (fun p => if p.2 then some p.1 else none)) := by
  intro lines
  induction lines with
  | nil => intro _; rfl
  | cons l ls ih =>
    intro hm
    have hl := process_line_eq_applyBest (hm l (List.mem_cons_self _ _)) hz
    have hls := ih (fun l' hl' => hm l' (List.mem_cons_of_mem _ hl'))
    rcases happ : applyBest zones l with ⟨l', b⟩
    rw [happ] at hl
    simp only [reassign_go, hl, hls, List.map_cons, List.filterMap_cons, happ]
    cases b
    · simp
    · simp

theorem mem_region_bboxes :
    ∀ (regions : List Region) (acc : List (Int × BBox)) (z : Int × BBox),
      z ∈ regions.foldl regionStep acc → z ∈ acc ∨ z.1 ∈ regions.map Region.pk := by
  intro regions
  induction regions with
  | nil => intro acc z h; exact Or.inl h
  | cons r rs ih =>
    intro acc z h
    simp only [List.foldl_cons] at h
    rcases ih _ z h with h' | h'
    · simp only [regionStep] at h'
      cases hb : extract_bbox r.box with
      | none =>
        rw [hb] at h'
        exact Or.inl h'
      | some b =>
        rw [hb] at h'
        rcases mem_dictInsert h' with hk | hmem
        · right
          simp only [List.map_cons, List.mem_cons]
          exact Or.inl hk
        · exact Or.inl hmem
    · right
      simp only [List.map_cons, List.mem_cons]
      exact Or.inr h'

theorem process_line_eq_some {zones : List (Int × BBox)} {line : Line} {st : Int × ℚ}
    (hfold : zones.foldl (bestStep line.mask) (some (-1, 0)) = some st) :
    process_line zones line =
      if st.1 ≠ -1 ∧ line.region ≠ some st.1 then
        some ({ line with region := some st.1 }, true)
      else some (line, false) := by
  unfold process_line
  rw [hfold]

theorem process_line_stable {zones : List (Int × BBox)} {l l' : Line} {b : Bool}
    (h : process_line zones l = some (l', b)) :
    process_line zones l' = some (l', false) := by
  cases hfold : zones.foldl (bestStep l.mask) (some (-1, 0)) with
  | none =>
    unfold process_line at h
    rw [hfold] at h
    exact Option.noConfusion h
  | some st =>
    rw [process_line_eq_some hfold] at h
    by_cases hc : st.1 ≠ -1 ∧ l.region ≠ some st.1
    · rw [if_pos hc] at h
      simp only [Option.some.injEq, Prod.mk.injEq] at h
      obtain ⟨hl', _⟩ := h
      subst hl'
      have hfold' : zones.foldl (bestStep ({ l with region := some st.1 } : Line).mask)
          (some (-1, 0)) = some st := hfold
      rw [process_line_eq_some hfold', if_neg]
      rintro ⟨_, hne⟩
      exact hne rfl
    · rw [if_neg hc] at h
      simp only [Option.some.injEq, Prod.mk.injEq] at h
      obtain ⟨hl', _⟩ := h
      subst hl'
      rw [process_line_eq_some hfold, if_neg hc]

theorem reassign_go_stable {zones : List (Int × BBox)} :
    ∀ {lines lines1 ups : List Line},
      reassign_go zones lines = some (lines1, ups) →
      reassign_go zones lines1 = some (lines1, []) := by
  intro lines
  induction lines with
  | nil =>
    intro lines1 ups h
    simp only [reassign_go, Option.some.injEq, Prod.mk.injEq] at h
    rw [← h.1]
    rfl
  | cons l ls ih =>
    intro lines1 ups h
    simp only [reassign_go] at h
    cases hp : process_line zones l with
    | none =>
      rw [hp] at h
      cases h
    | some p =>
      obtain ⟨p1, pb⟩ := p
      simp only [hp] at h
      cases hg : reassign_go zones ls with
      | none =>
        rw [hg] at h
        cases h
      | some q =>
        obtain ⟨ls1, ups1⟩ := q
        simp only [hg, Option.some.injEq, Prod.mk.injEq] at h
        obtain ⟨h1, _⟩ := h
        subst h1
        have hps := process_line_stable hp
        have hgs := ih hg
        simp [reassign_go, hps, hgs]

theorem process_line_frame {zones : List (Int × BBox)} {l l' : Line} {b : Bool}
    (h : process_line zones l = some (l', b)) :
    l'.pk = l.pk ∧ l'.mask = l.mask ∧ l'.extra = l.extra ∧
      (b = false → l' = l) ∧ (b = true → l'.region ≠ l.region) := by
  cases hfold : zones.foldl (bestStep l.mask) (some (-1, 0)) with
  | none =>
    unfold process_line at h
    rw [hfold] at h
    exact Option.noConfusion h
  | some st =>
    rw [process_line_eq_some hfold] at h
    by_cases hc : st.1 ≠ -1 ∧ l.region ≠ some st.1
    · rw [if_pos hc] at h
      simp only [Option.some.injEq, Prod.mk.injEq] at h
      obtain ⟨h1, h2⟩ := h
      subst h1
      refine ⟨rfl, rfl, rfl, ?_, ?_⟩
      · intro hb
        rw [← h2] at hb
        cases hb
      · intro _
        intro he
        exact hc.2 he.symm
    · rw [if_neg hc] at h
      simp only [Option.some.injEq, Prod.mk.injEq] at h
      obtain ⟨h1, h2⟩ := h
      subst h1
      refine ⟨rfl, rfl, rfl, fun _ => rfl, ?_⟩
      intro hb
      rw [← h2] at hb
      cases hb

theorem reassign_go_frame {zones : List (Int × BBox)} :
    ∀ {lines lines1 ups : List Line},
      reassign_go zones lines = some (lines1, ups) →
      List.Forall₂ (fun l l' => (l'.pk = l.pk ∧ l'.mask = l.mask ∧ l'.extra = l.extra) ∧
          (l' = l ∨ (l' ∈ ups ∧ l'.region ≠ l.region))) lines lines1 ∧
      ∀ u ∈ ups, ∃ l ∈ lines, (u.pk = l.pk ∧ u.mask = l.mask ∧ u.extra = l.extra) ∧
        u.region ≠ l.region := by
  intro lines
  induction lines with
  | nil =>
    intro lines1 ups h
    simp only [reassign_go, Option.some.injEq, Prod.mk.injEq] at h
    obtain ⟨h1, h2⟩ := h
    subst h1
    subst h2
    exact ⟨List.Forall₂.nil, by simp⟩
  | cons l ls ih =>
    intro lines1 ups h
    simp only [reassign_go] at h
    cases hp : process_line zones l with
    | none =>
      rw [hp] at h
      cases h
    | some p =>
      obtain ⟨p1, pb⟩ := p
      simp only [hp] at h
      cases hg : reassign_go zones ls with
      | none =>
        rw [hg] at h
        cases h
      | some q =>
        obtain ⟨ls1, ups1⟩ := q
        simp only [hg, Option.some.injEq, Prod.mk.injEq] at h
        obtain ⟨h1, h2⟩ := h
        subst h1
        subst h2
        obtain ⟨hfa, hup⟩ := ih hg
        have hframe := process_line_frame hp
        cases pb with
        | false =>
          simp only [Bool.false_eq_true, if_false]
          refine ⟨List.Forall₂.cons ⟨⟨hframe.1, hframe.2.1, hframe.2.2.1⟩,
            Or.inl (hframe.2.2.2.1 rfl)⟩ hfa, ?_⟩
          intro u hu
          obtain ⟨l'', hl'', hprop⟩ := hup u hu
          exact ⟨l'', List.mem_cons_of_mem _ hl'', hprop⟩
        | true =>
          simp only [if_true]
          constructor
          · refine List.Forall₂.cons ⟨⟨hframe.1, hframe.2.1, hframe.2.2.1⟩,
              Or.inr ⟨List.mem_cons_self _ _, hframe.2.2.2.2 rfl⟩⟩ ?_
            refine hfa.imp ?_
            intro a c hac
            refine ⟨hac.1, ?_⟩
            rcases hac.2 with h' | ⟨hm', hne'⟩
            · exact Or.inl h'
            · exact Or.inr ⟨List.mem_cons_of_mem _ hm', hne'⟩
          · intro u hu
            rcases List.mem_cons.mp hu with hu0 | hu'
            · subst hu0
              exact ⟨l, List.mem_cons_self _ _,
                ⟨hframe.1, hframe.2.1, hframe.2.2.1⟩, hframe.2.2.2.2 rfl⟩
            · obtain ⟨l'', hl'', hprop⟩ := hup u hu'
              exact ⟨l'', List.mem_cons_of_mem _ hl'', hprop⟩

/-- C1, counterexample: the claim "the output never contains both members of
a conflicting pair" is false.  With three mutually conflicting lines (pks
1, 2, 3, boxes `(0,0,10,10)`, `(1,0,11,10)`, `(2,0,12,10)`), pair (1,2)
deletes 1, pair (1,3) deletes 1, pair (2,3) deletes 2 — so the conflicting
pair (1,2) (iou 9/11 > 1/2) has BOTH members in the output. -/
theorem c1_both_members_deleted_cex :
    mkRat 1 2 < iou ⟨0, 0, 10, 10⟩ ⟨1, 0, 11, 10⟩ ∧
    extract_bbox [(0, 0), (10, 10)] = some ⟨0, 0, 10, 10⟩ ∧
    extract_bbox [(1, 0), (11, 10)] = some ⟨1, 0, 11, 10⟩ ∧
    1 ∈ detect_duplicates_to_delete
        [⟨1, [(0, 0), (10, 10)], none, 0⟩, ⟨2, [(1, 0), (11, 10)], none, 0⟩,
         ⟨3, [(2, 0), (12, 10)], none, 0⟩] ∧
    2 ∈ detect_duplicates_to_delete
        [⟨1, [(0, 0), (10, 10)], none, 0⟩, ⟨2, [(1, 0), (11, 10)], none, 0⟩,
         ⟨3, [(2, 0), (12, 10)], none, 0⟩] := by decide

/-- C1, amended: for every conflicting pair (two lines with non-empty masks,
distinct identifiers, bounding-box iou > 0.5), at least one of the two
identifiers is PRESENT in the deletion set — the output is a vertex cover of
the conflict graph; it may contain both members (see the counterexample). -/
theorem c1_conflicting_pair_covered (lines : List Line) (l1 l2 : Line) (b1 b2 : BBox)
    (hnd : (lines.map Line.pk).Nodup) (h1 : l1 ∈ lines) (h2 : l2 ∈ lines)
    (hne : l1.pk ≠ l2.pk) (hb1 : extract_bbox l1.mask = some b1)
    (hb2 : extract_bbox l2.mask = some b2) (hiou : mkRat 1 2 < iou b1 b2) :
    l1.pk ∈ detect_duplicates_to_delete lines ∨
      l2.pk ∈ detect_duplicates_to_delete lines := by
  have he1 := bboxEntry_mem hnd h1 hb1
  have he2 := bboxEntry_mem hnd h2 hb2
  have hnep : ((l1.pk, b1) : Int × BBox) ≠ (l2.pk, b2) := by
    intro h
    exact hne (congrArg Prod.fst h)
  rw [detect_duplicates_eq]
  rcases both_orders_sublist he1 he2 hnep with h | h
  · have hp : ((l1.pk, b1), (l2.pk, b2)) ∈ pairsOf (line_bboxes lines) :=
      pair_mem_pairsOf.mpr h
    have hx := (mem_dupFold _ [] _).mpr (Or.inr ⟨_, hp, hiou, rfl⟩)
    by_cases hlt : b1.x_min < b2.x_min
    · left
      simpa [hlt] using hx
    · right
      simpa [hlt] using hx
  · have hp : ((l2.pk, b2), (l1.pk, b1)) ∈ pairsOf (line_bboxes lines) :=
      pair_mem_pairsOf.mpr h
    have hiou' : mkRat 1 2 < iou b2 b1 := by rwa [iou_symm b2 b1]
    have hx := (mem_dupFold _ [] _).mpr (Or.inr ⟨_, hp, hiou', rfl⟩)
    by_cases hlt : b2.x_min < b1.x_min
    · right
      simpa [hlt] using hx
    · left
      simpa [hlt] using hx

/-- C1, amended, witness: two overlapping lines (iou 9/11 > 1/2); the
deletion set contains one of them. -/
theorem c1_conflicting_pair_covered_wit :
    (1 : Int) ∈ detect_duplicates_to_delete
        [⟨1, [(0, 0), (10, 10)], none, 0⟩, ⟨2, [(1, 0), (11, 10)], none, 0⟩] ∨
    (2 : Int) ∈ detect_duplicates_to_delete
        [⟨1, [(0, 0), (10, 10)], none, 0⟩, ⟨2, [(1, 0), (11, 10)], none, 0⟩] :=
  c1_conflicting_pair_covered
    [⟨1, [(0, 0), (10, 10)], none, 0⟩, ⟨2, [(1, 0), (11, 10)], none, 0⟩]
    ⟨1, [(0, 0), (10, 10)], none, 0⟩ ⟨2, [(1, 0), (11, 10)], none, 0⟩
    ⟨0, 0, 10, 10⟩ ⟨1, 0, 11, 10⟩
    (by decide) (by decide) (by decide) (by decide) (by decide) (by decide) (by decide)

/-- C3: membership in the deletion set is exactly "nominated by some
enumerated pair of bbox-dict entries with iou > 0.5, taking the
smaller-`x_min` member and the second member on an exact `x_min` tie";
in particular pairs with iou ≤ 0.5 contribute nothing. -/
theorem c3_duplicate_membership_characterization (lines : List Line) (x : Int) :
    x ∈ detect_duplicates_to_delete lines ↔
      ∃ pr ∈ pairsOf (line_bboxes lines), mkRat 1 2 < iou pr.1.2 pr.2.2 ∧
        x = (if pr.1.2.x_min < pr.2.2.x_min then pr.1.1 else pr.2.1) := by
  rw [detect_duplicates_eq, mem_dupFold]
  simp

/-- C6: `iou` is symmetric in its two bounding-box arguments. -/
theorem c6_iou_symmetric (A B : BBox) : iou A B = iou B A := iou_symm A B

/-- C7: `iou` of a non-degenerate box with itself is exactly `1`. -/
theorem c7_iou_self (A : BBox) (hx : A.x_min < A.x_max) (hy : A.y_min < A.y_max) :
    iou A A = 1 := by
  simp only [iou, max_self, min_self]
  have hw : max 0 (A.x_max - A.x_min) = A.x_max - A.x_min := max_eq_right (by omega)
  have hh : max 0 (A.y_max - A.y_min) = A.y_max - A.y_min := max_eq_right (by omega)
  rw [hw, hh]
  have hpos : 0 < (A.x_max - A.x_min) * (A.y_max - A.y_min) :=
    mul_pos (by omega) (by omega)
  rw [if_neg hpos.ne']
  have he : (A.x_max - A.x_min) * (A.y_max - A.y_min) +
      (A.x_max - A.x_min) * (A.y_max - A.y_min) -
      (A.x_max - A.x_min) * (A.y_max - A.y_min) =
      (A.x_max - A.x_min) * (A.y_max - A.y_min) := by ring
  rw [he, Rat.divInt_eq_div]
  exact div_self (Int.cast_ne_zero.mpr hpos.ne')

/-- C7, witness. -/
theorem c7_iou_self_wit : iou ⟨0, 0, 1, 1⟩ ⟨0, 0, 1, 1⟩ = 1 :=
  c7_iou_self ⟨0, 0, 1, 1⟩ (by decide) (by decide)

/-- C8: `rel_intersection` returns `0` whenever box `A` is degenerate (zero
width or zero height), for any `B`; otherwise (both boxes well-ordered,
`A` non-degenerate) it is the clamped intersection area divided by `A`'s
area, and lies in `[0, 1]`. -/
theorem c8_rel_intersection_range (A B : BBox) :
    ((A.x_min = A.x_max ∨ A.y_min = A.y_max) → rel_intersection A B = 0) ∧
    (A.x_min ≤ A.x_max → A.y_min ≤ A.y_max → B.x_min ≤ B.x_max → B.y_min ≤ B.y_max →
      A.x_min ≠ A.x_max → A.y_min ≠ A.y_max →
      rel_intersection A B =
          Rat.divInt
            (max 0 (min A.x_max B.x_max - max A.x_min B.x_min) *
              max 0 (min A.y_max B.y_max - max A.y_min B.y_min))
            ((A.x_max - A.x_min) * (A.y_max - A.y_min)) ∧
        0 ≤ rel_intersection A B ∧ rel_intersection A B ≤ 1) := by
  constructor
  · intro h
    simp only [rel_intersection]
    rw [if_pos]
    rcases h with h | h
    · left
      rw [h]
      simp
    · right
      rw [h]
      simp
  · intro hxa hya hxb hyb hnex hney
    have hwa : |A.x_min - A.x_max| = A.x_max - A.x_min := by
      rw [abs_sub_comm]
      exact abs_of_nonneg (by omega)
    have hha : |A.y_min - A.y_max| = A.y_max - A.y_min := by
      rw [abs_sub_comm]
      exact abs_of_nonneg (by omega)
    have hwpos : 0 < A.x_max - A.x_min := by omega
    have hhpos : 0 < A.y_max - A.y_min := by omega
    simp only [rel_intersection, hwa, hha]
    rw [if_neg (by omega)]
    refine ⟨rfl, ?_, ?_⟩
    · rw [Rat.divInt_eq_div]
      apply div_nonneg
      · exact_mod_cast mul_nonneg (le_max_left _ _) (le_max_left _ _)
      · exact_mod_cast (mul_pos hwpos hhpos).le
    · rw [Rat.divInt_eq_div, div_le_one (by exact_mod_cast mul_pos hwpos hhpos)]
      have h1 : max 0 (min A.x_max B.x_max - max A.x_min B.x_min) ≤
          A.x_max - A.x_min := by omega
      have h2 : max 0 (min A.y_max B.y_max - max A.y_min B.y_min) ≤
          A.y_max - A.y_min := by omega
      exact_mod_cast mul_le_mul h1 h2 (le_max_left _ _) (by omega)

/-- C8, witness: a degenerate first box gives `0`; a non-degenerate first box
gives a value in `[0, 1]`. -/
theorem c8_rel_intersection_range_wit :
    rel_intersection ⟨0, 1, 2, 1⟩ ⟨0, 0, 3, 3⟩ = 0 ∧
    0 ≤ rel_intersection ⟨0, 0, 2, 2⟩ ⟨1, 1, 3, 3⟩ ∧
    rel_intersection ⟨0, 0, 2, 2⟩ ⟨1, 1, 3, 3⟩ ≤ 1 :=
  ⟨(c8_rel_intersection_range ⟨0, 1, 2, 1⟩ ⟨0, 0, 3, 3⟩).1 (Or.inr rfl),
   ((c8_rel_intersection_range ⟨0, 0, 2, 2⟩ ⟨1, 1, 3, 3⟩).2 (by decide) (by decide)
      (by decide) (by decide) (by decide) (by decide)).2.1,
   ((c8_rel_intersection_range ⟨0, 0, 2, 2⟩ ⟨1, 1, 3, 3⟩).2 (by decide) (by decide)
      (by decide) (by decide) (by decide) (by decide)).2.2⟩

/-- C9: on a non-empty collection of lines with non-empty masks and distinct
identifiers, the deletion set is a strict subset of the line identifiers:
every deleted id is a line id, and the first-enumerated bbox-dict entry of
greatest `x_min` is a line whose id is never deleted. -/
theorem c9_survivor_exists (lines : List Line)
    (hne : lines ≠ []) (hm : ∀ l ∈ lines, l.mask ≠ [])
    (hnd : (lines.map Line.pk).Nodup) :
    (∀ x ∈ detect_duplicates_to_delete lines, x ∈ lines.map Line.pk) ∧
    ∃ m, firstMaxEntry (line_bboxes lines) = some m ∧ m.1 ∈ lines.map Line.pk ∧
      m.1 ∉ detect_duplicates_to_delete lines := by
  have hrep := line_bboxes_eq_filterMap hnd
  have hkeys := line_bboxes_keys_nodup lines
  have hmemkey : ∀ z ∈ line_bboxes lines, z.1 ∈ lines.map Line.pk := by
    intro z hz
    rw [hrep] at hz
    obtain ⟨l, hl, hlz⟩ := List.mem_filterMap.mp hz
    rw [bboxEntry_key hlz]
    exact List.mem_map_of_mem Line.pk hl
  refine ⟨?_, ?_⟩
  · intro x hx
    rw [detect_duplicates_eq, mem_dupFold] at hx
    rcases hx with hx | ⟨pr, hpr, _, hx⟩
    · cases hx
    · obtain ⟨hp1, hp2⟩ := mem_of_mem_pairsOf hpr
      by_cases hlt : pr.1.2.x_min < pr.2.2.x_min
      · rw [hx, if_pos hlt]
        exact hmemkey _ hp1
      · rw [hx, if_neg hlt]
        exact hmemkey _ hp2
  · cases hd : line_bboxes lines with
    | nil =>
      exfalso
      cases lines with
      | nil => exact hne rfl
      | cons l ls =>
        rw [hrep] at hd
        cases hb : extract_bbox l.mask with
        | none => exact hm l (List.mem_cons_self _ _) (extract_bbox_eq_none.mp hb)
        | some b => simp [List.filterMap_cons, bboxEntry, hb] at hd
    | cons e es =>
      have hmem : firstMaxGo e es ∈ line_bboxes lines := by
        rw [hd]
        rcases firstMaxGo_mem es e with h | h
        · rw [h]
          exact List.mem_cons_self _ _
        · exact List.mem_cons_of_mem _ h
      have hall : ∀ z ∈ line_bboxes lines, z.2.x_min ≤ (firstMaxGo e es).2.x_min := by
        rw [hd]
        intro z hz
        obtain ⟨h1, h2⟩ := firstMaxGo_ge es e
        rcases List.mem_cons.mp hz with he0 | hz'
        · rw [he0]
          exact h1
        · exact h2 z hz'
      have hsplit : ∃ d1 d2, line_bboxes lines = d1 ++ firstMaxGo e es :: d2 ∧
          ∀ z ∈ d1, z.2.x_min < (firstMaxGo e es).2.x_min := by
        rw [hd]
        rcases firstMaxGo_split es e with h | ⟨es1, es2, heq, hlt⟩
        · exact ⟨[], es, by rw [h, List.nil_append], by simp⟩
        · exact ⟨e :: es1, es2, congrArg (List.cons e) heq, fun z hz => hlt z hz⟩
      refine ⟨firstMaxGo e es, rfl, hmemkey _ hmem, ?_⟩
      intro hx
      rw [detect_duplicates_eq, mem_dupFold] at hx
      rcases hx with hx | ⟨pr, hpr, hio, hx⟩
      · cases hx
      obtain ⟨hp1, hp2⟩ := mem_of_mem_pairsOf hpr
      obtain ⟨d1, d2, hdd, hless⟩ := hsplit
      have hsb0 : List.Sublist [pr.1, pr.2] (line_bboxes lines) := by
        refine pair_mem_pairsOf.mp ?_
        rw [Prod.mk.eta]
        exact hpr
      by_cases hlt : pr.1.2.x_min < pr.2.2.x_min
      · rw [if_pos hlt] at hx
        have he1 : pr.1 = firstMaxGo e es :=
          List.inj_on_of_nodup_map hkeys hp1 hmem hx.symm
        rw [he1] at hlt
        have h2 := hall pr.2 hp2
        omega
      · rw [if_neg hlt] at hx
        have he2 : pr.2 = firstMaxGo e es :=
          List.inj_on_of_nodup_map hkeys hp2 hmem hx.symm
        rw [he2, hdd] at hsb0
        have hnotin : (firstMaxGo e es).1 ∉ d2.map Prod.fst := by
          have hkeys' := hkeys
          rw [hdd] at hkeys'
          simp only [List.map_append, List.map_cons] at hkeys'
          exact (List.nodup_cons.mp (List.nodup_append.mp hkeys').2.1).1
        have he1d1 := sublist_before d1 d2 pr.1 (firstMaxGo e es) hsb0 hnotin
        have h1 := hless pr.1 he1d1
        rw [he2] at hlt
        omega

/-- C9, witness: three mutually conflicting lines; pk 3 (greatest `x_min`)
survives and every deleted id is a line id. -/
theorem c9_survivor_exists_wit :
    (∀ x ∈ detect_duplicates_to_delete
        [⟨1, [(0, 0), (10, 10)], none, 0⟩, ⟨2, [(1, 0), (11, 10)], none, 0⟩,
         ⟨3, [(2, 0), (12, 10)], none, 0⟩],
       x ∈ List.map Line.pk
        [⟨1, [(0, 0), (10, 10)], none, 0⟩, ⟨2, [(1, 0), (11, 10)], none, 0⟩,
         ⟨3, [(2, 0), (12, 10)], none, 0⟩]) ∧
    ∃ m, firstMaxEntry (line_bboxes
        [⟨1, [(0, 0), (10, 10)], none, 0⟩, ⟨2, [(1, 0), (11, 10)], none, 0⟩,
         ⟨3, [(2, 0), (12, 10)], none, 0⟩]) = some m ∧
      m.1 ∈ List.map Line.pk
        [⟨1, [(0, 0), (10, 10)], none, 0⟩, ⟨2, [(1, 0), (11, 10)], none, 0⟩,
         ⟨3, [(2, 0), (12, 10)], none, 0⟩] ∧
      m.1 ∉ detect_duplicates_to_delete
        [⟨1, [(0, 0), (10, 10)], none, 0⟩, ⟨2, [(1, 0), (11, 10)], none, 0⟩,
         ⟨3, [(2, 0), (12, 10)], none, 0⟩] :=
  c9_survivor_exists
    [⟨1, [(0, 0), (10, 10)], none, 0⟩, ⟨2, [(1, 0), (11, 10)], none, 0⟩,
     ⟨3, [(2, 0), (12, 10)], none, 0⟩]
    (by decide) (by decide) (by decide)

/-- C2: evaluation at the failing input.  `detect_duplicates_to_delete`
excludes the empty-mask line (pk 1) as the claim demands, but
`detect_reassignment` does NOT filter lines: as soon as one region has a
box, it evaluates `extract_bbox` on the empty mask inside the region loop
and raises an `IndexError` (modelled `none`) instead of skipping the line. -/
theorem c2_empty_mask_crash :
    detect_reassignment
        [⟨1, [], none, 0⟩, ⟨2, [(0, 0), (10, 10)], none, 0⟩]
        [⟨7, [(0, 0), (20, 20)]⟩] = none ∧
    detect_duplicates_to_delete
        [⟨1, [], none, 0⟩, ⟨2, [(0, 0), (10, 10)], none, 0⟩] = [] := by decide

/-- C4, counterexample: the best region for the line box `(0,0,10,10)` among
the regions is the region with identifier `-1` (relative overlap 1 > 0), and
it differs from the line's current region (`none`); the claim demands that
the line appear in the output with its region set — but the source's
`best_idx = -1` sentinel makes the update impossible, and the output is
empty. -/
theorem c4_sentinel_region_cex :
    best_region_spec ⟨0, 0, 10, 10⟩ (region_bboxes [⟨-1, [(0, 0), (20, 20)]⟩]) =
      some (-1, 1) ∧
    extract_bbox [(0, 0), (10, 10)] = some ⟨0, 0, 10, 10⟩ ∧
    (⟨1, [(0, 0), (10, 10)], none, 0⟩ : Line).region ≠ some (-1) ∧
    detect_reassignment [⟨1, [(0, 0), (10, 10)], none, 0⟩] [⟨-1, [(0, 0), (20, 20)]⟩] =
      some ([⟨1, [(0, 0), (10, 10)], none, 0⟩], []) := by decide

/-- C4, amended: provided no region identifier equals `-1` (the engine's
internal sentinel) and every line has a non-empty mask, `detect_reassignment`
computes, per line, the first-encountered candidate region of strictly
greatest positive relative overlap (`best_region_spec`, written from the
spec's words); a line is in the output exactly when such a best region
exists and differs from its current region reference, in which case its
region is set to that identifier (`applyBest`). -/
theorem c4_reassignment_characterization (lines : List Line) (regions : List Region)
    (hm : ∀ l ∈ lines, l.mask ≠ []) (hr : ∀ r ∈ regions, r.pk ≠ -1) :
    detect_reassignment lines regions = some
      (lines.map (fun l => (applyBest (region_bboxes regions) l).1),
       (lines.map (applyBest (region_bboxes regions))).filterMap
         (fun p => if p.2 then some p.1 else none)) := by
  have hz : ∀ z ∈ region_bboxes regions, z.1 ≠ -1 := by
    intro z hzm
    rcases mem_region_bboxes regions [] z hzm with h | h
    · cases h
    · obtain ⟨r, hr', hrk⟩ := List.mem_map.mp h
      rw [← hrk]
      exact hr r hr'
  exact reassign_go_eq hz lines hm

/-- C4, amended, witness: one line, one region (pk 7) fully containing it;
the line is reassigned to region 7 and returned. -/
theorem c4_reassignment_characterization_wit :
    detect_reassignment [⟨1, [(0, 0), (10, 10)], none, 0⟩] [⟨7, [(0, 0), (20, 20)]⟩] =
      some ([⟨1, [(0, 0), (10, 10)], some 7, 0⟩],
            [⟨1, [(0, 0), (10, 10)], some 7, 0⟩]) :=
  (c4_reassignment_characterization [⟨1, [(0, 0), (10, 10)], none, 0⟩]
      [⟨7, [(0, 0), (20, 20)]⟩] (by decide) (by decide)).trans (by decide)

/-- C5: region assignment is idempotent — if a run of `detect_reassignment`
returns (with its in-place updates applied, giving `lines1`), a second run
on `lines1` with the same regions returns the same lines and an empty
update list. -/
theorem c5_reassignment_idempotent (lines : List Line) (regions : List Region)
    (lines1 ups : List Line)
    (h : detect_reassignment lines regions = some (lines1, ups)) :
    detect_reassignment lines1 regions = some (lines1, []) :=
  reassign_go_stable h

/-- C5, witness: the second run on the updated line returns no updates. -/
theorem c5_reassignment_idempotent_wit :
    detect_reassignment [⟨1, [(0, 0), (10, 10)], some 7, 0⟩]
        [⟨7, [(0, 0), (20, 20)]⟩] =
      some ([⟨1, [(0, 0), (10, 10)], some 7, 0⟩], []) :=
  c5_reassignment_idempotent
    [⟨1, [(0, 0), (10, 10)], none, 0⟩] [⟨7, [(0, 0), (20, 20)]⟩]
    [⟨1, [(0, 0), (10, 10)], some 7, 0⟩] [⟨1, [(0, 0), (10, 10)], some 7, 0⟩]
    (by decide)

/-- C10: `detect_reassignment` rewrites only the `region` field.  Pointwise,
each output line keeps its `pk`, `mask` and remaining payload (`extra`),
and is either identical to its input line or a member of the update list
with a changed region; every update-list member arises from an input line
this way. -/
theorem c10_frame_only_region (lines : List Line) (regions : List Region)
    (lines1 ups : List Line)
    (h : detect_reassignment lines regions = some (lines1, ups)) :
    List.Forall₂ (fun l l' => (l'.pk = l.pk ∧ l'.mask = l.mask ∧ l'.extra = l.extra) ∧
        (l' = l ∨ (l' ∈ ups ∧ l'.region ≠ l.region))) lines lines1 ∧
    ∀ u ∈ ups, ∃ l ∈ lines, (u.pk = l.pk ∧ u.mask = l.mask ∧ u.extra = l.extra) ∧
      u.region ≠ l.region :=
  reassign_go_frame h

/-- C10, witness. -/
theorem c10_frame_only_region_wit :
    List.Forall₂ (fun l l' => (l'.pk = l.pk ∧ l'.mask = l.mask ∧ l'.extra = l.extra) ∧
        (l' = l ∨ (l' ∈ [(⟨1, [(0, 0), (10, 10)], some 7, 42⟩ : Line)] ∧
          l'.region ≠ l.region)))
      [⟨1, [(0, 0), (10, 10)], none, 42⟩] [⟨1, [(0, 0), (10, 10)], some 7, 42⟩] ∧
    ∀ u ∈ [(⟨1, [(0, 0), (10, 10)], some 7, 42⟩ : Line)],
      ∃ l ∈ [(⟨1, [(0, 0), (10, 10)], none, 42⟩ : Line)],
        (u.pk = l.pk ∧ u.mask = l.mask ∧ u.extra = l.extra) ∧ u.region ≠ l.region :=
  c10_frame_only_region
    [⟨1, [(0, 0), (10, 10)], none, 42⟩] [⟨7, [(0, 0), (20, 20)]⟩]
    [⟨1, [(0, 0), (10, 10)], some 7, 42⟩] [⟨1, [(0, 0), (10, 10)], some 7, 42⟩]
    (by decide)
